import Mathlib

/-!
Verification of the `speckit-status` task-file parser.

The TypeScript sources (`src/parser.ts`, `src/dependency-parser.ts`,
`src/git-utils.ts`, `src/types.ts`) are shallowly embedded below.  Strings are
modelled as `List Char` internally (`String` at the API boundary), JavaScript
`Map` objects as insertion-ordered association lists, and each regular
expression of the source as a hand-rolled deterministic matcher implementing
the JS backtracking semantics of that concrete pattern.  All scanning
functions are structurally recursive (a length fuel is used for the global
regex scans) so that every definition evaluates by kernel reduction.
-/

namespace Speckit

/-! Character classes and basic string helpers -/

/-- JS `\s` (the whitespace characters relevant here; the exotic Unicode
space block ` `-` ` is omitted, no claim depends on it). -/
def jsSpace (c : Char) : Bool :=
  c = ' ' ∨ c = '\t' ∨ c = '\n' ∨ c = '\r' ∨ c = '\x0b' ∨ c = '\x0c' ∨
  c = ' ' ∨ c = ' ' ∨ c = ' ' ∨ c = '﻿'

/-- JS `.` (without the `s` flag): any character except a line terminator. -/
def dotChar (c : Char) : Bool :=
  ¬ (c = '\n' ∨ c = '\r' ∨ c = ' ' ∨ c = ' ')

/-- ASCII lower-casing, the case folding JS applies for `/.../i` on the
ASCII-only patterns appearing in the source. -/
def toLowerAscii (c : Char) : Char :=
  if 'A' ≤ c ∧ c ≤ 'Z' then Char.ofNat (c.toNat + 32) else c

/-- JS `String.prototype.split` against a single-character class:
`"".split` gives `[""]`, and every separator occurrence splits. -/
def jsSplitChars (p : Char → Bool) : List Char → List (List Char)
  | [] => [[]]
  | c :: rest =>
    if p c then [] :: jsSplitChars p rest
    else
      match jsSplitChars p rest with
      | g :: gs => (c :: g) :: gs
      | [] => [[c]]

/-- JS `String.prototype.trim`. -/
def jsTrim (l : List Char) : List Char :=
  ((l.dropWhile jsSpace).reverse.dropWhile jsSpace).reverse

/-- Decimal value of a digit string (the effect of JS `parseInt(s, 10)` on
the all-digit capture groups produced by the regexes below). -/
def natOfDigits (l : List Char) : Nat :=
  l.foldl (fun a c => a * 10 + (c.toNat - 48)) 0

/-- JS `parseInt(s.trim(), 10)` restricted to the `[\d/]`-segment inputs it
receives in the source: `NaN` (i.e. `none`) when no leading digits exist. -/
def parseIntOpt (l : List Char) : Option Nat :=
  let t := jsTrim l
  let ds := t.takeWhile Char.isDigit
  if ds.isEmpty then none else some (natOfDigits ds)

/-- Lexicographic code-unit order on character lists (the comparison JS
`Array.prototype.sort()` applies to strings when no comparator is given). -/
def jsLexLeChars : List Char → List Char → Bool
  | [], _ => true
  | _ :: _, [] => false
  | a :: as, b :: bs =>
    if a.toNat < b.toNat then true
    else if b.toNat < a.toNat then false
    else jsLexLeChars as bs

def jsLexLe (a b : String) : Bool :=
  jsLexLeChars a.data b.data

/-- JS `String.prototype.padStart(3, '0')` on a character list. -/
def padStart3 (l : List Char) : List Char :=
  if l.length < 3 then List.replicate (3 - l.length) '0' ++ l else l

/-! Generic regex scanning.

`scanAllF` implements `String.prototype.matchAll` for a pattern compiled to a
matcher `m`: `m l = some (capture, used)` means the pattern matches a prefix
of `l` consuming `used ≥ 1` characters.  Scanning is leftmost,
non-overlapping, resuming right after each match.  The fuel argument (always
instantiated with the list length) keeps the recursion structural. -/

def scanAllF (m : List Char → Option (β × Nat)) : Nat → List Char → List β
  | 0, _ => []
  | _, [] => []
  | fuel + 1, c :: rest =>
    match m (c :: rest) with
    | some (b, k) => b :: scanAllF m fuel ((c :: rest).drop (k.max 1))
    | none => scanAllF m fuel rest

def scanAll (m : List Char → Option (β × Nat)) (l : List Char) : List β :=
  scanAllF m l.length l

/-- First match of a pattern anywhere in the input (JS `String.prototype.match`
with a non-global regex, keeping only the capture). -/
def firstMatch (m : List Char → Option β) : List Char → Option β
  | [] => none
  | c :: rest =>
    match m (c :: rest) with
    | some b => some b
    | none => firstMatch m rest

/-- Substring containment, JS `String.prototype.includes`. -/
def containsSub (needle : List Char) : List Char → Bool
  | [] => needle.isEmpty
  | c :: rest => needle.isPrefixOf (c :: rest) || containsSub needle rest

/-- JS `Array.prototype.findIndex` returning an absolute index. -/
def findFrom (p : α → Bool) : List α → Nat → Option Nat
  | [], _ => none
  | x :: xs, i => if p x then some i else findFrom p xs (i + 1)

/-- Source form `lines.findIndex((l, i) => i > start && p l)`. -/
def findIdxAfter (p : List Char → Bool) (start : Nat) (lines : List (List Char)) :
    Option Nat :=
  findFrom p (lines.drop (start + 1)) (start + 1)

/-! JS `Map` as an insertion-ordered association list. -/

/-- JS `Map.prototype.get`. -/
def mapLookup (m : List (Nat × α)) (k : Nat) : Option α :=
  match m with
  | [] => none
  | (k', v) :: rest => if k' = k then some v else mapLookup rest k

/-- JS `Map.prototype.set`: replaces in place, or appends a new entry. -/
def mapSet (m : List (Nat × α)) (k : Nat) (v : α) : List (Nat × α) :=
  match m with
  | [] => [(k, v)]
  | (k', v') :: rest => if k' = k then (k', v) :: rest else (k', v') :: mapSet rest k v

/-- JS `[...new Set(l)]`: deduplication keeping first occurrences. -/
def dedupFirstAux [BEq α] (seen : List α) : List α → List α
  | [] => []
  | x :: xs =>
    if seen.contains x then dedupFirstAux seen xs
    else x :: dedupFirstAux (seen ++ [x]) xs

def dedupFirst [BEq α] (l : List α) : List α :=
  dedupFirstAux [] l

/-! Data model (`src/types.ts`). -/

/-- Structure `PhaseDependency` of `types.ts`. -/
structure PhaseDependency where
  shortName : String
  dependsOn : List Nat
  blocks : List Nat
  canRunParallelWith : List Nat
  parallelTasks : List String
  description : String
deriving Repr, DecidableEq

/-- Structure `Task` of `types.ts`. -/
structure Task where
  id : String
  completed : Bool
  title : String
deriving Repr, DecidableEq

/-- Structure `Phase` of `types.ts` (`priority?` and `dependency?` as `Option`). -/
structure Phase where
  number : Nat
  title : String
  priority : Option String
  tasks : List Task
  completedCount : Nat
  totalCount : Nat
  isComplete : Bool
  dependency : Option PhaseDependency
deriving Repr, DecidableEq

/-- Structure `ParseResult` of `types.ts`.  The field `nextTask?` is declared in the source type
but `parseTasksFile` never assigns it; the embedding keeps the field so that
this behaviour is observable. -/
structure ParseResult where
  specFolder : String
  specName : String
  phases : List Phase
  totalTasks : Nat
  completedTasks : Nat
  nextPhase : Option Phase
  nextTask : Option Task
  availablePhases : List Phase
deriving Repr, DecidableEq

/-! Task-ID extraction (`dependency-parser.ts`, `extractParallelTasks`). -/

/-- One attempt of `TASK_RANGE_REGEX = /T(\d+)-T(\d+)/g` at the current
position: `T`, digits (greedy), `-T`, digits (greedy). -/
def matchTaskRangeAt (l : List Char) : Option ((List Char × List Char) × Nat) :=
  match l with
  | 'T' :: rest =>
    let ds := rest.takeWhile Char.isDigit
    if ds.isEmpty then none
    else
      match rest.drop ds.length with
      | '-' :: 'T' :: r2 =>
        let es := r2.takeWhile Char.isDigit
        if es.isEmpty then none
        else some ((ds, es), 1 + ds.length + 2 + es.length)
      | _ => none
  | _ => none

/-- One attempt of `TASK_ID_REGEX = /T(\d+)/g` at the current position. -/
def matchTaskIdAt (l : List Char) : Option (List Char × Nat) :=
  match l with
  | 'T' :: rest =>
    let ds := rest.takeWhile Char.isDigit
    if ds.isEmpty then none else some (ds, 1 + ds.length)
  | _ => none

def scanTaskRanges (l : List Char) : List (List Char × List Char) :=
  scanAll matchTaskRangeAt l

def scanTaskIds (l : List Char) : List (List Char) :=
  scanAll matchTaskIdAt l

/-- The body of `for (let i = start; i <= end; i++)`. -/
def natsFromTo (s e : Nat) : List Nat :=
  List.range' s (e + 1 - s)

/-- Template `T` + `i.toString().padStart(3, '0')` of the range expansion. -/
def taskIdOfNat (i : Nat) : String :=
  String.mk ('T' :: padStart3 (Nat.repr i).data)

/-- Template `T` + `match[1]?.padStart(3, '0')` (pads the raw digit string). -/
def taskIdOfDigits (ds : List Char) : String :=
  String.mk ('T' :: padStart3 ds)

/-- Function `extractParallelTasks` of `dependency-parser.ts`: expand ranges first
(recording them in `processedRanges`), then the individual IDs not produced
by a range, then `[...new Set(tasks)].sort()`. -/
def extractParallelTasks (description : List Char) : List String :=
  let s1 := (scanTaskRanges description).foldl
    (fun (acc : List String × List String) m =>
      let start := natOfDigits m.1
      let e := natOfDigits m.2
      (natsFromTo start e).foldl
        (fun (acc2 : List String × List String) i =>
          let taskId := taskIdOfNat i
          (acc2.1 ++ [taskId], acc2.2 ++ [taskId])) acc)
    ([], [])
  let tasks := s1.1
  let processedRanges := s1.2
  let tasks := (scanTaskIds description).foldl
    (fun acc ds =>
      let taskId := taskIdOfDigits ds
      if processedRanges.contains taskId then acc else acc ++ [taskId]) tasks
  List.insertionSort (fun a b => jsLexLe a b = true) (dedupFirst tasks)

/-! Anchored line patterns.

Each anchored regex of the source is compiled to a step-by-step matcher.
Greedy `\s+`/`\s*`/`\d+`/`[^)]+` runs are deterministic here because the
character following each run in the pattern can never extend the run, so no
backtracking into them is possible (the two places where JS backtracking IS
observable — the `\s*(.+)$` and `\s*(.+?)(?:…)?$` tails — are modelled
explicitly). -/

/-- Literal fragment: consume `lit` or fail. -/
def expectLit (lit l : List Char) : Option (List Char) :=
  if lit.isPrefixOf l then some (l.drop lit.length) else none

/-- Greedy `\s+` (at least one). -/
def spaces1 (l : List Char) : Option (List Char) :=
  let ws := l.takeWhile jsSpace
  if ws.isEmpty then none else some (l.drop ws.length)

/-- Greedy `(\d+)` (at least one). -/
def digits1 (l : List Char) : Option (List Char × List Char) :=
  let ds := l.takeWhile Char.isDigit
  if ds.isEmpty then none else some (ds, l.drop ds.length)

/-- The `\s*(.+)$` tail with the greedy group captured.  If everything left
is whitespace, `\s*` backtracks one character so `.+` can take it (when `.`
matches it). -/
def descTail (r : List Char) : Option (List Char) :=
  let d := r.dropWhile jsSpace
  if d.isEmpty then
    match r.getLast? with
    | some c => if dotChar c then some [c] else none
    | none => none
  else if d.all dotChar then some d else none

/-- Pattern `PHASE_DEP_LINE_REGEX = /^-\s+\*\*Phase\s+(\d+)\s+\(([^)]+)\)\*\*:\s*(.+)$/`,
returning the three capture groups (digits, name, description). -/
def phaseDepLineMatch (line : List Char) : Option (List Char × List Char × List Char) := do
  let r ← expectLit ['-'] line
  let r ← spaces1 r
  let r ← expectLit "**Phase".data r
  let r ← spaces1 r
  let (ds, r) ← digits1 r
  let r ← spaces1 r
  let r ← expectLit ['('] r
  let name := r.takeWhile (fun c => c ≠ ')')
  if name.isEmpty then none else do
  let r ← expectLit [')'] (r.drop name.length)
  let r ← expectLit "**:".data r
  let desc ← descTail r
  some (ds, name, desc)

/-- Pattern `PARALLEL_OPP_LINE_REGEX = /^\*\*Phase\s+(\d+)\s+\([^)]+\)\*\*:\s*(.+)$/`,
returning (digits, description). -/
def parallelOppLineMatch (line : List Char) : Option (List Char × List Char) := do
  let r ← expectLit "**Phase".data line
  let r ← spaces1 r
  let (ds, r) ← digits1 r
  let r ← spaces1 r
  let r ← expectLit ['('] r
  let name := r.takeWhile (fun c => c ≠ ')')
  if name.isEmpty then none else do
  let r ← expectLit [')'] (r.drop name.length)
  let r ← expectLit "**:".data r
  let desc ← descTail r
  some (ds, desc)

/-- One attempt of `/[Uu]⟨lit⟩(\d+)/g`-shaped patterns (`DEPENDS_ON_REGEX`,
`BLOCKS_PHASE_REGEX`) at the current position. -/
def matchKeyPhraseAt (u lo : Char) (lit : List Char) (l : List Char) :
    Option (List Char × Nat) :=
  match l with
  | c :: rest =>
    if (c = u ∨ c = lo) ∧ lit.isPrefixOf rest then
      let r := rest.drop lit.length
      let ds := r.takeWhile Char.isDigit
      if ds.isEmpty then none else some (ds, 1 + lit.length + ds.length)
    else none
  | [] => none

/-- Captures of `description.matchAll(/[Dd]epends on Phase (\d+)/g)`. -/
def scanDependsOn (l : List Char) : List (List Char) :=
  scanAll (matchKeyPhraseAt 'D' 'd' "epends on Phase ".data) l

/-- Captures of `description.matchAll(/[Bb]locks Phase (\d+)/g)`. -/
def scanBlocksPhase (l : List Char) : List (List Char) :=
  scanAll (matchKeyPhraseAt 'B' 'b' "locks Phase ".data) l

/-- Test `DEPENDS_ON_ALL_REGEX.test(description)` (`/[Dd]epends on all/i`). -/
def testDependsOnAll (desc : List Char) : Bool :=
  containsSub "depends on all".data (desc.map toLowerAscii)

/-- Test `BLOCKS_ALL_REGEX.test(description)` (`/BLOCKS all/i`). -/
def testBlocksAll (desc : List Char) : Bool :=
  containsSub "blocks all".data (desc.map toLowerAscii)

/-- The `\s*([\d/]+)` tail of `PARALLEL_TO_REGEX`. -/
def parallelDigitsAt (r : List Char) : Option (List Char) :=
  let r2 := r.dropWhile jsSpace
  let ds := r2.takeWhile (fun c => c.isDigit ∨ c = '/')
  if ds.isEmpty then none else some ds

/-- One attempt of `PARALLEL_TO_REGEX = /parallel to Phase[s]?\s*([\d/]+)/`
at the current position; `[s]?` is greedy with a backtracking alternative. -/
def matchParallelToAt (l : List Char) : Option (List Char) :=
  if "parallel to Phase".data.isPrefixOf l then
    let r := l.drop "parallel to Phase".data.length
    match r with
    | 's' :: r2 =>
      (match parallelDigitsAt r2 with
       | some ds => some ds
       | none => parallelDigitsAt r)
    | _ => parallelDigitsAt r
  else none

/-- Capture of `description.match(PARALLEL_TO_REGEX)`. -/
def parallelToMatch (desc : List Char) : Option (List Char) :=
  firstMatch matchParallelToAt desc

/-! Embedding of `dependency-parser.ts`. -/

/-- Function `parsePhaseDependencyLine` of `dependency-parser.ts`. -/
def parsePhaseDependencyLine (line : List Char) (allPhaseNumbers : List Nat) :
    Option (Nat × PhaseDependency) :=
  match phaseDepLineMatch line with
  | none => none
  | some (ds, name, desc) =>
    let phaseNumber := natOfDigits ds
    let dependsOn :=
      if testDependsOnAll desc then allPhaseNumbers.filter (fun n => n < phaseNumber)
      else (scanDependsOn desc).map natOfDigits
    let blocks :=
      if testBlocksAll desc then allPhaseNumbers.filter (fun n => n > phaseNumber)
      else (scanBlocksPhase desc).map natOfDigits
    let canRunParallelWith :=
      match parallelToMatch desc with
      | none => []
      | some cap => (jsSplitChars (fun c => c = '/') cap).filterMap parseIntOpt
    some (phaseNumber,
      { shortName := String.mk name
        dependsOn := dependsOn
        blocks := blocks
        canRunParallelWith := canRunParallelWith
        parallelTasks := []
        description := String.mk desc })

/-- Function `parseParallelOpportunities` of `dependency-parser.ts`. -/
def parseParallelOpportunities (lines : List (List Char)) : List (Nat × List String) :=
  lines.foldl (fun result line =>
    match parallelOppLineMatch line with
    | some (ds, desc) =>
      let tasks := extractParallelTasks desc
      if tasks.length > 0 then mapSet result (natOfDigits ds) tasks else result
    | none => result) []

/-- The master phase-number list of `parseDependencies` (collected over the
whole document, for the "depends on all" / "BLOCKS all" expansions). -/
def allPhaseNumbersOf (lines : List (List Char)) : List Nat :=
  lines.filterMap (fun l => (phaseDepLineMatch l).map (fun m => natOfDigits m.1))

/-- Condition `line.startsWith('###') || line.startsWith('## ')` (the Phase
Dependencies loop break condition). -/
def isBreakLine (l : List Char) : Bool :=
  "###".data.isPrefixOf l || "## ".data.isPrefixOf l

/-- The Phase Dependencies scanning loop of `parseDependencies` (break on a
section header, skip blanks, `result.set` per parsed line). -/
def scanDepLines : List (List Char) → List Nat → List (Nat × PhaseDependency) →
    List (Nat × PhaseDependency)
  | [], _, m => m
  | line :: rest, all, m =>
    if isBreakLine line then m
    else if (jsTrim line).isEmpty then scanDepLines rest all m
    else
      match parsePhaseDependencyLine line all with
      | some nd => scanDepLines rest all (mapSet m nd.1 nd.2)
      | none => scanDepLines rest all m

/-- The Parallel Opportunities line-collection loop (break on `---`/`## `,
skip blanks). -/
def collectParallelLines : List (List Char) → List (List Char)
  | [] => []
  | line :: rest =>
    if "---".data.isPrefixOf line || "## ".data.isPrefixOf line then []
    else if (jsTrim line).isEmpty then collectParallelLines rest
    else line :: collectParallelLines rest

/-- The merge step: attach `parallelTasks` to existing records, or create
placeholder records. -/
def mergeParallel (m : List (Nat × PhaseDependency)) (pt : List (Nat × List String)) :
    List (Nat × PhaseDependency) :=
  pt.foldl (fun result kv =>
    match mapLookup result kv.1 with
    | some existing => mapSet result kv.1 { existing with parallelTasks := kv.2 }
    | none => mapSet result kv.1
        { shortName := "", dependsOn := [], blocks := [],
          canRunParallelWith := [], parallelTasks := kv.2, description := "" }) m

/-- One reverse edge: `if (blocker && !blocker.blocks.includes(phaseNum))
blocker.blocks.push(phaseNum)`. -/
def addEdge (m : List (Nat × PhaseDependency)) (d k : Nat) :
    List (Nat × PhaseDependency) :=
  match mapLookup m d with
  | some blocker =>
    if blocker.blocks.contains k then m
    else mapSet m d { blocker with blocks := blocker.blocks ++ [k] }
  | none => m

/-- Reverse-edge synthesis: for every entry, for every phase it depends on,
add the reverse `blocks` edge into the current map. -/
def addBlockEdges (m : List (Nat × PhaseDependency)) : List (Nat × PhaseDependency) :=
  m.foldl (fun acc kv => kv.2.dependsOn.foldl (fun a d => addEdge a d kv.1) acc) m

/-- Final normalization: `dep.blocks.sort((a, b) => a - b)`. -/
def sortBlocksAll (m : List (Nat × PhaseDependency)) : List (Nat × PhaseDependency) :=
  m.map (fun kv => (kv.1, { kv.2 with blocks := List.insertionSort (· ≤ ·) kv.2.blocks }))

/-- Source form `content.split('\n')`, shared by both parsing passes. -/
def docLines (content : String) : List (List Char) :=
  jsSplitChars (fun c => c = '\n') content.data

def depSectionMarker : List Char := "## Dependencies & Execution Order".data

def phaseDepsHeader : List Char := "### Phase Dependencies".data

def parallelOppHeader : List Char := "### Parallel Opportunities".data

/-- Body of `parseDependencies` up to (and excluding) the reverse-edge and
sorting loops.  The source returns the empty map early when the section
marker is absent; running the two final loops on the empty map is the
identity, so factoring them out below is faithful. -/
def parseDependenciesRaw (content : String) : List (Nat × PhaseDependency) :=
  let lines := docLines content
  match findFrom (fun l => containsSub depSectionMarker l) lines 0 with
  | none => []
  | some depSectionStart =>
    let phaseDepsStart :=
      findIdxAfter (fun l => containsSub phaseDepsHeader l) depSectionStart lines
    let parallelOppStart :=
      findIdxAfter (fun l => containsSub parallelOppHeader l) depSectionStart lines
    let allPhaseNumbers := allPhaseNumbersOf lines
    let result : List (Nat × PhaseDependency) :=
      match phaseDepsStart with
      | none => []
      | some pds =>
        let endIndex :=
          match parallelOppStart with
          | some po => po
          | none => lines.length
        scanDepLines ((lines.drop (pds + 1)).take (endIndex - (pds + 1)))
          allPhaseNumbers []
    match parallelOppStart with
    | none => result
    | some po =>
      mergeParallel result
        (parseParallelOpportunities (collectParallelLines (lines.drop (po + 1))))

/-- Function `parseDependencies` of `dependency-parser.ts`. -/
def parseDependencies (content : String) : List (Nat × PhaseDependency) :=
  sortBlocksAll (addBlockEdges (parseDependenciesRaw content))

/-- Function `calculateAvailablePhases` of `dependency-parser.ts`. -/
def calculateAvailablePhases (phases : List Phase) : List Nat :=
  let completedPhases := (phases.filter (fun p => p.isComplete)).map (fun p => p.number)
  let available := phases.foldl (fun acc phase =>
    if phase.isComplete then acc
    else
      match phase.dependency with
      | none => acc ++ [phase.number]
      | some dep =>
        if dep.dependsOn.isEmpty then acc ++ [phase.number]
        else if dep.dependsOn.all (fun d => completedPhases.contains d) then
          acc ++ [phase.number]
        else acc) []
  List.insertionSort (· ≤ ·) available

/-- Function `getSpecName` of `git-utils.ts`: `specFolder.split(/[/\\]/)` and the
last segment, with an `?? 'unknown'` fallback. -/
def getSpecName (specFolder : String) : String :=
  let parts := jsSplitChars (fun c => c = '/' ∨ c = '\\') specFolder.data
  match parts.getLast? with
  | some p => String.mk p
  | none => "unknown"

/-! Embedding of `parser.ts`. -/

/-- The `(?:\s*\(Priority:\s*(P\d)\))?$` tail of `PHASE_HEADER_REGEX`:
matches only when it consumes the whole remainder, returning the `P\d`
capture. -/
def priorityTail (s : List Char) : Option (List Char) := do
  let r ← expectLit "(Priority:".data (s.dropWhile jsSpace)
  match r.dropWhile jsSpace with
  | 'P' :: d :: ')' :: rest =>
    if d.isDigit ∧ rest.isEmpty then some ['P', d] else none
  | _ => none

/-- After the lazy `(.+?)` has consumed a nonempty title, the rest must
satisfy the (greedy) optional priority group to the end, or be empty. -/
def checkTail (rest : List Char) : Option (Option (List Char)) :=
  match priorityTail rest with
  | some p => some (some p)
  | none => if rest.isEmpty then some none else none

/-- The lazy `(.+?)` search: grow the title one character at a time, testing
the tail (priority group first, then `$`) at each nonempty length. -/
def lazyTitle : List Char → List Char → Option (List Char × Option (List Char))
  | tRev, [] =>
    if tRev.isEmpty then none
    else
      match checkTail [] with
      | some res => some (tRev.reverse, res)
      | none => none
  | tRev, c :: r2 =>
    if tRev.isEmpty then
      if dotChar c then lazyTitle [c] r2 else none
    else
      match checkTail (c :: r2) with
      | some res => some (tRev.reverse, res)
      | none => if dotChar c then lazyTitle (c :: tRev) r2 else none

/-- Pattern `PHASE_HEADER_REGEX = /^##\s+Phase\s+(\d+):\s*(.+?)(?:\s*\(Priority:\s*(P\d)\))?$/`,
returning (digits, title, priority capture).  The two `none` fallbacks model
the backtracking of the greedy `\s*` when the lazy scan fails: the title can
be a single whitespace character, either just before the line end or just
before a full priority tail. -/
def phaseHeaderMatch (line : List Char) :
    Option (List Char × List Char × Option (List Char)) := do
  let r ← expectLit "##".data line
  let r ← spaces1 r
  let r ← expectLit "Phase".data r
  let r ← spaces1 r
  let (ds, r) ← digits1 r
  let r ← expectLit [':'] r
  let wsLen := (r.takeWhile jsSpace).length
  let r1 := r.drop wsLen
  match lazyTitle [] r1 with
  | some (t, pr) => some (ds, t, pr)
  | none =>
    if r1.isEmpty then
      match r.getLast? with
      | some c => if dotChar c then some (ds, [c], none) else none
      | none => none
    else
      match priorityTail r1 with
      | some p =>
        match (r.take wsLen).reverse.find? dotChar with
        | some c => some (ds, [c], some p)
        | none => none
      | none => none

/-- Pattern `TASK_LINE_REGEX = /^-\s+\[(X| )\]\s+(T\d+)\s+(.*)$/`, returning
(checkbox, id, raw title). -/
def taskLineMatch (line : List Char) : Option (Char × List Char × List Char) := do
  let r ← expectLit ['-'] line
  let r ← spaces1 r
  let r ← expectLit ['['] r
  match r with
  | cb :: r2 =>
    if cb = 'X' ∨ cb = ' ' then do
      let r3 ← expectLit [']'] r2
      let r4 ← spaces1 r3
      match r4 with
      | 'T' :: r5 =>
        let ds := r5.takeWhile Char.isDigit
        if ds.isEmpty then none else do
        let r6 ← spaces1 (r5.drop ds.length)
        if r6.all dotChar then some (cb, 'T' :: ds, r6) else none
      | _ => none
    else none
  | [] => none

/-- Function `parseTaskLine` of `parser.ts`. -/
def parseTaskLine (cb : Char) (id title : List Char) : Task :=
  { id := String.mk id
    completed := cb = 'X'
    title := String.mk (jsTrim title) }

/-- Function `finalizePhase` of `parser.ts`. -/
def finalizePhase (phase : Phase) : Phase :=
  let completedCount := (phase.tasks.filter (fun t => t.completed)).length
  { phase with
    completedCount := completedCount
    totalCount := phase.tasks.length
    isComplete := completedCount == phase.tasks.length && phase.tasks.length > 0 }

/-- One iteration of the document scan of `parseTasksFile` (the state is the
finalized phases so far and the current phase). -/
def parseStep (st : List Phase × Option Phase) (line : List Char) :
    List Phase × Option Phase :=
  match phaseHeaderMatch line with
  | some (ds, title, priority) =>
    let phases :=
      match st.2 with
      | some cp => st.1 ++ [finalizePhase cp]
      | none => st.1
    (phases, some
      { number := natOfDigits ds
        title := String.mk (jsTrim title)
        priority := priority.map String.mk
        tasks := []
        completedCount := 0
        totalCount := 0
        isComplete := false
        dependency := none })
  | none =>
    match taskLineMatch line with
    | some (cb, id, ttl) =>
      match st.2 with
      | some cp => (st.1, some { cp with tasks := cp.tasks ++ [parseTaskLine cb id ttl] })
      | none => st
    | none => st

/-- Function `parseTasksFile` of `parser.ts` (the `parse` entry point).  Note that the
returned record never assigns `nextTask`, exactly as the source's object
literal omits it. -/
def parseTasksFile (content specFolder : String) : ParseResult :=
  let lines := docLines content
  let st := lines.foldl parseStep ([], none)
  let phases :=
    match st.2 with
    | some cp => st.1 ++ [finalizePhase cp]
    | none => st.1
  let dependencies := parseDependencies content
  let phases := phases.map (fun phase =>
    match mapLookup dependencies phase.number with
    | some dep => { phase with dependency := some dep }
    | none => phase)
  let totalTasks := phases.foldl (fun sum p => sum + p.totalCount) 0
  let completedTasks := phases.foldl (fun sum p => sum + p.completedCount) 0
  let nextPhase := phases.find? (fun p => !p.isComplete)
  let availablePhaseNumbers := calculateAvailablePhases phases
  let availablePhases :=
    phases.filter (fun p => availablePhaseNumbers.contains p.number && !p.isComplete)
  { specFolder := specFolder
    specName := getSpecName specFolder
    phases := phases
    totalTasks := totalTasks
    completedTasks := completedTasks
    nextPhase := nextPhase
    nextTask := none
    availablePhases := availablePhases }

/-! Specification-side definitions.

These re-state, in the spec's own words, the behaviours claimed for the
implementation functions above; the claim theorems compare the two. -/

/-- Specification wording of the parallel-task extraction: expand every range
expression into the inclusive zero-padded sequence, append each remaining
bare token not produced by a range, deduplicate, sort lexicographically. -/
def extractParallelTasksSpec (desc : List Char) : List String :=
  let rangeIds := (scanTaskRanges desc).flatMap
    (fun m => (natsFromTo (natOfDigits m.1) (natOfDigits m.2)).map taskIdOfNat)
  let extras := ((scanTaskIds desc).map taskIdOfDigits).filter
    (fun t => !rangeIds.contains t)
  List.insertionSort (fun a b => jsLexLe a b = true) (dedupFirst (rangeIds ++ extras))

/-- Specification wording of the spec-name derivation: the substring after
the last `/` or `\` separator (the whole string when no separator occurs,
empty for a trailing separator or the empty path). -/
def lastSegment (l : List Char) : List Char :=
  (l.reverse.takeWhile (fun c => !(c = '/' ∨ c = '\\'))).reverse

/-- Numbers of the complete phases of a list (the set the availability
contract quantifies over). -/
def completedNumbers (phases : List Phase) : List Nat :=
  (phases.filter (fun p => p.isComplete)).map (fun p => p.number)

/-- Specification wording of phase availability: not complete, and every
`dependsOn` entry (vacuously, when there is no dependency record or the list
is empty) is the number of some complete phase. -/
def availableAsSpecified (phases : List Phase) (p : Phase) : Bool :=
  !p.isComplete &&
    (match p.dependency with
     | none => true
     | some dep => dep.dependsOn.all (fun d => (completedNumbers phases).contains d))

/-! Concrete documents used by the claim counterexamples and witnesses. -/

/-- Document for C1: one phase whose first task is incomplete. -/
def c1doc : String := "## Phase 1: Setup\n- [ ] T001 First task"

/-- The first incomplete task of `c1doc`. -/
def c1task : Task := { id := "T001", completed := false, title := "First task" }

/-- Document for C2's witness: one complete and one blocked phase. -/
def c2doc : String :=
  "## Phase 1: A\n- [X] T001 X\n## Phase 2: B\n- [ ] T002 Y\n## Phase 3: C\n- [ ] T003 Z\n## Dependencies & Execution Order\n### Phase Dependencies\n- **Phase 3 (C)**: Depends on Phase 2"

/-- Document for C3's counterexample: a description stating the same
`Blocks Phase 3` twice. -/
def c3dupDoc : String :=
  "## Dependencies & Execution Order\n### Phase Dependencies\n- **Phase 1 (A)**: Blocks Phase 3 and Blocks Phase 3"

/-- Document for C3's witness: phase 2 depends on phase 1. -/
def c3wDoc : String :=
  "\n## Dependencies & Execution Order\n\n### Phase Dependencies\n\n- **Phase 1 (Setup)**: No dependencies\n- **Phase 2 (Development)**: Depends on Phase 1\n"

/-- Record of phase 1 in `parseDependencies c3wDoc`. -/
def c3wDep1 : PhaseDependency :=
  { shortName := "Setup", dependsOn := [], blocks := [2],
    canRunParallelWith := [], parallelTasks := [], description := "No dependencies" }

/-- Record of phase 2 in `parseDependencies c3wDoc`. -/
def c3wDep2 : PhaseDependency :=
  { shortName := "Development", dependsOn := [1], blocks := [],
    canRunParallelWith := [], parallelTasks := [], description := "Depends on Phase 1" }

/-- Document for C4's witness (the master list is collected document-wide). -/
def c4doc : String :=
  "- **Phase 1 (A)**: x\n- **Phase 2 (B)**: y\n- **Phase 3 (C)**: Depends on all previous"

/-- The third line of `c4doc`. -/
def c4line : List Char := "- **Phase 3 (C)**: Depends on all previous".data

/-- Record parsed from `c4line`. -/
def c4dep : PhaseDependency :=
  { shortName := "C", dependsOn := [1, 2], blocks := [],
    canRunParallelWith := [], parallelTasks := [],
    description := "Depends on all previous" }

/-- Document for C6's counterexample: phases in non-ascending order. -/
def c6doc : String := "## Phase 2: B\n- [ ] T001 X\n## Phase 1: A\n- [ ] T002 Y"

/-- Document for C9: two well-formed dependency lines for phase 2. -/
def c9doc : String :=
  "## Dependencies & Execution Order\n### Phase Dependencies\n- **Phase 2 (A)**: Depends on Phase 1\n- **Phase 2 (B)**: Blocks Phase 9"


/-- First phase-2 dependency line of `c9doc`. -/
def c9l1 : List Char := "- **Phase 2 (A)**: Depends on Phase 1".data

/-- Second phase-2 dependency line of `c9doc`. -/
def c9l2 : List Char := "- **Phase 2 (B)**: Blocks Phase 9".data

/-- Record parsed from `c9l1` (replaced by the later line). -/
def c9d1 : PhaseDependency :=
  { shortName := "A", dependsOn := [1], blocks := [],
    canRunParallelWith := [], parallelTasks := [], description := "Depends on Phase 1" }

/-- The record of the later phase-2 line of `c9doc` (the earlier line's
`dependsOn := [1]`, `shortName := "A"` and description are gone). -/
def c9rec : PhaseDependency :=
  { shortName := "B", dependsOn := [], blocks := [9],
    canRunParallelWith := [], parallelTasks := [], description := "Blocks Phase 9" }

/-! Support lemmas. -/

theorem foldl_push_filter (q : α → Bool) (proj : α → β) :
    ∀ (l : List α) (acc : List β),
      l.foldl (fun a x => if q x then a ++ [proj x] else a) acc
        = acc ++ (l.filter q).map proj := by
  intro l
  induction l with
  | nil => intro acc; simp
  | cons x xs ih =>
    intro acc
    cases hq : q x <;> simp [List.filter_cons, hq, ih]

theorem foldl_add_map (l : List α) (f : α → Nat) (n : Nat) :
    l.foldl (fun s p => s + f p) n = n + (l.map f).sum := by
  induction l generalizing n with
  | nil => simp
  | cons x xs ih => simp [ih, Nat.add_assoc]

/-- The loop body of `calculateAvailablePhases` pushes exactly the phases
satisfying the specification-side predicate. -/
theorem availableStep_eq (phases : List Phase) (acc : List Nat) (p : Phase) :
    (if p.isComplete then acc
     else
       match p.dependency with
       | none => acc ++ [p.number]
       | some dep =>
         if dep.dependsOn.isEmpty then acc ++ [p.number]
         else if dep.dependsOn.all (fun d => (completedNumbers phases).contains d) then
           acc ++ [p.number]
         else acc)
      = if availableAsSpecified phases p then acc ++ [p.number] else acc := by
  cases hc : p.isComplete
  · cases hd : p.dependency with
    | none => simp [availableAsSpecified, hc, hd]
    | some dep =>
      cases he : dep.dependsOn with
      | nil => simp [availableAsSpecified, hc, hd, he]
      | cons d ds =>
        cases ha : (d :: ds).all (fun d => (completedNumbers phases).contains d) <;>
          simp [availableAsSpecified, hc, hd, he, ha]
  · simp [availableAsSpecified, hc]

theorem takeWhile_append_single_false (q : α → Bool) (c : α) (hc : q c = false) :
    ∀ xs : List α, ((xs ++ [c]).takeWhile q) = xs.takeWhile q := by
  intro xs
  induction xs with
  | nil => simp [List.takeWhile_cons, hc]
  | cons x xs ih =>
    cases hx : q x <;> simp [List.takeWhile_cons, hx, ih]

theorem takeWhile_append_stop (q : α → Bool) :
    ∀ xs : List α, (∃ x ∈ xs, q x = false) →
      ∀ ys, ((xs ++ ys).takeWhile q) = xs.takeWhile q := by
  intro xs hx
  induction xs with
  | nil => obtain ⟨x, hmem, _⟩ := hx; exact absurd hmem (List.not_mem_nil x)
  | cons a xs ih =>
    intro ys
    cases ha : q a with
    | false => simp [List.takeWhile_cons, ha]
    | true =>
      obtain ⟨x, hmem, hqx⟩ := hx
      have hxs : ∃ x ∈ xs, q x = false := by
        rcases List.mem_cons.mp hmem with h | h
        · rw [h] at hqx; rw [hqx] at ha; cases ha
        · exact ⟨x, h, hqx⟩
      simp [List.takeWhile_cons, ha, ih hxs ys]

theorem jsSplit_ne_nil (p : Char → Bool) : ∀ l : List Char, jsSplitChars p l ≠ [] := by
  intro l
  induction l with
  | nil => simp [jsSplitChars]
  | cons c rest ih =>
    cases hc : p c
    · simp only [jsSplitChars, hc, Bool.false_eq_true, if_false]
      cases hm : jsSplitChars p rest with
      | nil => exact absurd hm ih
      | cons g gs => simp
    · simp [jsSplitChars, hc]

theorem jsSplit_all_not (p : Char → Bool) :
    ∀ l : List Char, (∀ c ∈ l, p c = false) → jsSplitChars p l = [l] := by
  intro l
  induction l with
  | nil => intro _; rfl
  | cons c rest ih =>
    intro h
    have hc : p c = false := h c (List.mem_cons_self c rest)
    have hrest := ih (fun x hx => h x (List.mem_cons_of_mem c hx))
    simp [jsSplitChars, hc, hrest]

theorem jsSplit_singleton (p : Char → Bool) :
    ∀ l x : List Char, jsSplitChars p l = [x] → x = l ∧ ∀ c ∈ l, p c = false := by
  intro l
  induction l with
  | nil =>
    intro x h
    simp only [jsSplitChars] at h
    injection h with h1 _
    exact ⟨h1.symm, by simp⟩
  | cons c rest ih =>
    intro x h
    cases hc : p c
    · simp only [jsSplitChars, hc, Bool.false_eq_true, if_false] at h
      cases hm : jsSplitChars p rest with
      | nil => exact absurd hm (jsSplit_ne_nil p rest)
      | cons g gs =>
        rw [hm] at h
        injection h with hx1' hgs
        have hx1 : x = c :: g := hx1'.symm
        rw [hgs] at hm
        obtain ⟨hg, hall⟩ := ih g hm
        constructor
        · rw [hx1, hg]
        · intro d hd
          rcases List.mem_cons.mp hd with hdc | hdr
          · rw [hdc]; exact hc
          · exact hall d hdr
    · simp only [jsSplitChars, hc, if_true] at h
      cases hm : jsSplitChars p rest with
      | nil => exact absurd hm (jsSplit_ne_nil p rest)
      | cons g gs => rw [hm] at h; cases h

theorem jsSplit_getLast (p : Char → Bool) :
    ∀ l : List Char, (jsSplitChars p l).getLast?
      = some ((l.reverse.takeWhile (fun c => !p c)).reverse) := by
  intro l
  induction l with
  | nil => rfl
  | cons c rest ih =>
    cases hc : p c with
    | true =>
      have hq : (fun x => !p x) c = false := by simp [hc]
      have hsplit : jsSplitChars p (c :: rest) = [] :: jsSplitChars p rest := by
        simp [jsSplitChars, hc]
      rw [hsplit]
      cases hm : jsSplitChars p rest with
      | nil => exact absurd hm (jsSplit_ne_nil p rest)
      | cons g gs =>
        rw [List.getLast?_cons_cons]
        rw [← hm, ih]
        have : (c :: rest).reverse.takeWhile (fun c => !p c)
            = rest.reverse.takeWhile (fun c => !p c) := by
          rw [List.reverse_cons]
          exact takeWhile_append_single_false (fun x => !p x) c hq rest.reverse
        rw [this]
    | false =>
      cases hm : jsSplitChars p rest with
      | nil => exact absurd hm (jsSplit_ne_nil p rest)
      | cons g gs =>
        have hsplit : jsSplitChars p (c :: rest) = (c :: g) :: gs := by
          simp [jsSplitChars, hc, hm]
        rw [hsplit]
        cases gs with
        | nil =>
          obtain ⟨hg, hall⟩ := jsSplit_singleton p rest g hm
          have hallq : ∀ x ∈ (c :: rest).reverse, (fun x => !p x) x = true := by
            intro x hx
            rw [List.mem_reverse] at hx
            rcases List.mem_cons.mp hx with h | h
            · simp [h, hc]
            · simp [hall x h]
          have : (c :: rest).reverse.takeWhile (fun c => !p c) = (c :: rest).reverse :=
            List.takeWhile_eq_self_iff.mpr hallq
          rw [this]
          simp [hg]
        | cons g2 gs2 =>
          rw [List.getLast?_cons_cons]
          have hlhs : (g2 :: gs2).getLast? = (jsSplitChars p rest).getLast? := by
            rw [hm, List.getLast?_cons_cons]
          rw [hlhs, ih]
          have hsep : ∃ x ∈ rest, p x = true := by
            by_contra hno
            push_neg at hno
            have hall : ∀ x ∈ rest, p x = false := by
              intro x hx
              cases hpx : p x
              · rfl
              · exact absurd hpx (hno x hx)
            have := jsSplit_all_not p rest hall
            rw [this] at hm
            cases hm
          have hstop : ∃ x ∈ rest.reverse, (fun x => !p x) x = false := by
            obtain ⟨x, hx, hpx⟩ := hsep
            exact ⟨x, List.mem_reverse.mpr hx, by simp [hpx]⟩
          have : (c :: rest).reverse.takeWhile (fun c => !p c)
              = rest.reverse.takeWhile (fun c => !p c) := by
            rw [List.reverse_cons]
            exact takeWhile_append_stop (fun x => !p x) rest.reverse hstop [c]
          rw [this]

theorem rangeInnerFold_eq :
    ∀ (ns : List Nat) (acc : List String × List String),
      ns.foldl (fun acc2 i =>
          (acc2.1 ++ [taskIdOfNat i], acc2.2 ++ [taskIdOfNat i])) acc
        = (acc.1 ++ ns.map taskIdOfNat, acc.2 ++ ns.map taskIdOfNat) := by
  intro ns
  induction ns with
  | nil => intro acc; simp
  | cons n ns ih => intro acc; simp [ih]

theorem rangeFold_eq :
    ∀ (ranges : List (List Char × List Char)) (acc : List String × List String),
      ranges.foldl (fun acc m =>
          (natsFromTo (natOfDigits m.1) (natOfDigits m.2)).foldl (fun acc2 i =>
            (acc2.1 ++ [taskIdOfNat i], acc2.2 ++ [taskIdOfNat i])) acc) acc
        = (acc.1 ++ ranges.flatMap
            (fun m => (natsFromTo (natOfDigits m.1) (natOfDigits m.2)).map taskIdOfNat),
           acc.2 ++ ranges.flatMap
            (fun m => (natsFromTo (natOfDigits m.1) (natOfDigits m.2)).map taskIdOfNat)) := by
  intro ranges
  induction ranges with
  | nil => intro acc; simp
  | cons r rs ih =>
    intro acc
    simp only [List.foldl_cons, List.flatMap_cons]
    rw [rangeInnerFold_eq, ih]
    simp

theorem idsFold_eq (processed : List String) :
    ∀ (ids : List (List Char)) (t0 : List String),
      ids.foldl (fun acc ds =>
          if processed.contains (taskIdOfDigits ds) then acc
          else acc ++ [taskIdOfDigits ds]) t0
        = t0 ++ (ids.map taskIdOfDigits).filter
            (fun t => !processed.contains t) := by
  intro ids
  induction ids with
  | nil => intro t0; simp
  | cons d ds ih =>
    intro t0
    simp only [List.foldl_cons, List.map_cons, List.filter_cons]
    cases h : processed.contains (taskIdOfDigits d) with
    | true =>
      rw [if_pos rfl, if_neg (by decide)]
      exact ih t0
    | false =>
      rw [if_neg (by decide), if_pos (by decide)]
      rw [ih, List.append_assoc, List.singleton_append]

/-! Claim theorems. -/

/-- C8: `getSpecName` returns the substring after the last `/` or `\`
separator (so: the empty string for a trailing separator or the empty path,
and the whole string when no separator occurs), and the `'unknown'` fallback
is unreachable because the split list is never empty. -/
theorem claim_C8_spec_name (s : String) :
    getSpecName s = String.mk (lastSegment s.data) ∧
    (jsSplitChars (fun c => c = '/' ∨ c = '\\') s.data).isEmpty = false := by
  constructor
  · show (match (jsSplitChars (fun c => c = '/' ∨ c = '\\') s.data).getLast? with
      | some p => String.mk p
      | none => "unknown") = _
    rw [jsSplit_getLast]
    rfl
  · cases hl : jsSplitChars (fun c => c = '/' ∨ c = '\\') s.data with
    | nil => exact absurd hl (jsSplit_ne_nil _ _)
    | cons g gs => rfl

/-- C1 (code bug evidence): on a document whose first phase has an incomplete
first task, `parseTasksFile` leaves `nextTask` unassigned (`none`) even
though `nextPhase` is present and its first incomplete task exists. -/
theorem claim_C1_nextTask_never_assigned :
    (parseTasksFile c1doc "spec").nextTask = none ∧
    ((parseTasksFile c1doc "spec").nextPhase.map
        (fun p => p.tasks.find? (fun t => !t.completed))) = some (some c1task) :=
  ⟨rfl, rfl⟩

/-- C2: `calculateAvailablePhases` returns exactly the numbers of the phases
that are not complete and whose every `dependsOn` entry is the number of a
complete phase (phases without a dependency record, or with an empty
`dependsOn`, count as available), sorted ascending regardless of input
order. -/
theorem claim_C2_available_phases_exact (phases : List Phase) :
    List.Sorted (· ≤ ·) (calculateAvailablePhases phases) ∧
    List.Perm (calculateAvailablePhases phases)
      ((phases.filter (availableAsSpecified phases)).map (fun p => p.number)) := by
  have hbody : calculateAvailablePhases phases
      = List.insertionSort (· ≤ ·)
          ((phases.filter (availableAsSpecified phases)).map (fun p => p.number)) := by
    show List.insertionSort (· ≤ ·)
        (phases.foldl _ []) = _
    have hfun : (fun (acc : List Nat) (phase : Phase) =>
        if phase.isComplete then acc
        else
          match phase.dependency with
          | none => acc ++ [phase.number]
          | some dep =>
            if dep.dependsOn.isEmpty then acc ++ [phase.number]
            else if dep.dependsOn.all
                (fun d => ((phases.filter (fun p => p.isComplete)).map
                  (fun p => p.number)).contains d) then
              acc ++ [phase.number]
            else acc)
        = fun acc p => if availableAsSpecified phases p then acc ++ [p.number] else acc := by
      funext acc p
      exact availableStep_eq phases acc p
    rw [hfun, foldl_push_filter]
    simp
  rw [hbody]
  exact ⟨List.sorted_insertionSort _ _, List.perm_insertionSort _ _⟩

/-- C5: `extractParallelTasks` equals the specification pipeline — expand
every range into the inclusive zero-padded sequence, append each remaining
bare token not produced by a range, deduplicate and sort lexicographically —
and the example description yields exactly the 17 IDs `T002`–`T018`. -/
theorem claim_C5_parallel_task_extraction :
    (∀ desc : List Char, extractParallelTasks desc = extractParallelTasksSpec desc) ∧
    extractParallelTasks "T002-T018 can mostly run in parallel".data
      = ["T002", "T003", "T004", "T005", "T006", "T007", "T008", "T009", "T010",
         "T011", "T012", "T013", "T014", "T015", "T016", "T017", "T018"] := by
  constructor
  · intro desc
    unfold extractParallelTasks extractParallelTasksSpec
    simp only [rangeFold_eq]
    simp only [idsFold_eq]
    simp
  · decide

/-- C6 (amended): `availablePhases` is exactly the sublist of the main phase
list keeping the phases that are not complete and whose number the
availability computation returned — in document order (it is sorted by
number only when those phases appear in ascending document order). -/
theorem claim_C6_available_phases_filter (content folder : String) :
    (parseTasksFile content folder).availablePhases
        = (parseTasksFile content folder).phases.filter
            (fun p => (calculateAvailablePhases
                (parseTasksFile content folder).phases).contains p.number
              && !p.isComplete) ∧
    (parseTasksFile content folder).availablePhases.Sublist
      (parseTasksFile content folder).phases := by
  refine ⟨rfl, ?_⟩
  exact List.filter_sublist _

/-- C6 counterexample: with phases in non-ascending document order, the
`availablePhases` list of `parseTasksFile` is not sorted by phase number. -/
theorem claim_C6_counterexample :
    ((parseTasksFile c6doc "x").availablePhases.map (fun p => p.number)) = [2, 1] ∧
    ¬ List.Sorted (· ≤ ·)
        ((parseTasksFile c6doc "x").availablePhases.map (fun p => p.number)) := by
  constructor
  · rfl
  · intro h
    have h21 : List.Sorted (· ≤ ·) ([2, 1] : List Nat) := by
      have he : ((parseTasksFile c6doc "x").availablePhases.map
          (fun p => p.number)) = [2, 1] := rfl
      rw [he] at h
      exact h
    simp [List.Sorted] at h21

/-- C7: `parseTasksFile` is total (a Lean function) and internally
consistent — the aggregate counts are the sums over the phases — and the
empty document yields the empty result (no phases, zero totals, no next
phase, no next task, no available phases). -/
theorem claim_C7_total_and_empty (content folder : String) :
    ((parseTasksFile content folder).totalTasks
        = ((parseTasksFile content folder).phases.map (fun p => p.totalCount)).sum) ∧
    ((parseTasksFile content folder).completedTasks
        = ((parseTasksFile content folder).phases.map (fun p => p.completedCount)).sum) ∧
    parseTasksFile "" folder
        = { specFolder := folder, specName := getSpecName folder, phases := [],
            totalTasks := 0, completedTasks := 0, nextPhase := none,
            nextTask := none, availablePhases := [] } := by
  refine ⟨?_, ?_, rfl⟩
  · show ((parseTasksFile content folder).phases).foldl
        (fun s p => s + p.totalCount) 0 = _
    rw [foldl_add_map]
    simp
  · show ((parseTasksFile content folder).phases).foldl
        (fun s p => s + p.completedCount) 0 = _
    rw [foldl_add_map]
    simp

theorem scanAllF_fuel_eq (m : List Char → Option (β × Nat)) :
    ∀ (f1 f2 : Nat) (l : List Char), l.length ≤ f1 → l.length ≤ f2 →
      scanAllF m f1 l = scanAllF m f2 l := by
  intro f1
  induction f1 with
  | zero =>
    intro f2 l h1 _
    have hl : l = [] := List.length_eq_zero.mp (Nat.le_zero.mp h1)
    subst hl
    cases f2 <;> rfl
  | succ f1 ih =>
    intro f2 l h1 h2
    cases l with
    | nil => cases f2 <;> rfl
    | cons c rest =>
      cases f2 with
      | zero => simp at h2
      | succ f2' =>
        simp only [scanAllF]
        cases hm : m (c :: rest) with
        | none =>
          exact ih f2' rest (by simp at h1; omega) (by simp at h2; omega)
        | some bk =>
          have hdrop : ((c :: rest).drop (bk.2.max 1)).length ≤ rest.length := by
            rw [List.length_drop]
            simp only [List.length_cons]
            have : 1 ≤ bk.2.max 1 := Nat.le_max_right _ _
            omega
          exact congrArg (bk.1 :: ·)
            (ih f2' _ (by simp at h1; omega) (by simp at h2; omega))

theorem scanAll_cons_none (m : List Char → Option (β × Nat)) (c : Char)
    (rest : List Char) (h : m (c :: rest) = none) :
    scanAll m (c :: rest) = scanAll m rest := by
  show scanAllF m (c :: rest).length (c :: rest) = scanAllF m rest.length rest
  simp only [List.length_cons, scanAllF, h]

theorem scanAll_cons_some (m : List Char → Option (β × Nat)) (c : Char)
    (rest : List Char) (b : β) (k : Nat) (h : m (c :: rest) = some (b, k)) :
    scanAll m (c :: rest) = b :: scanAll m ((c :: rest).drop (k.max 1)) := by
  show scanAllF m (c :: rest).length (c :: rest) = _
  simp only [List.length_cons, scanAllF, h]
  refine congrArg (b :: ·) (scanAllF_fuel_eq m rest.length _ _ ?_ (Nat.le_refl _))
  rw [List.length_drop]
  simp only [List.length_cons]
  have : 1 ≤ k.max 1 := Nat.le_max_right _ _
  omega

theorem takeWhile_append_not (q : α → Bool) (ds : List α)
    (hall : ∀ x ∈ ds, q x = true) (c : α) (hc : q c = false) (t : List α) :
    ((ds ++ c :: t).takeWhile q) = ds := by
  induction ds with
  | nil => simp [List.takeWhile_cons, hc]
  | cons d ds ih =>
    have hd : q d = true := hall d (List.mem_cons_self d ds)
    simp only [List.cons_append, List.takeWhile_cons, hd, if_true]
    rw [ih (fun x hx => hall x (List.mem_cons_of_mem d hx))]


theorem matchTaskRangeAt_eq (ds es : List Char) (hds : ds ≠ []) (hes : es ≠ [])
    (hd : ∀ c ∈ ds, c.isDigit = true) (he : ∀ c ∈ es, c.isDigit = true) :
    matchTaskRangeAt ('T' :: (ds ++ '-' :: 'T' :: es))
      = some ((ds, es), 1 + ds.length + 2 + es.length) := by
  simp only [matchTaskRangeAt]
  rw [takeWhile_append_not Char.isDigit ds hd '-' (by decide) ('T' :: es)]
  rw [if_neg (by simp [hds])]
  rw [List.drop_left]
  simp only []
  rw [List.takeWhile_eq_self_iff.mpr (by intro x hx; exact he x hx)]
  rw [if_neg (by simp [hes])]

theorem matchTaskIdAt_eq (ds : List Char) (hds : ds ≠ [])
    (hd : ∀ c ∈ ds, c.isDigit = true) (t : List Char)
    (ht : t = [] ∨ ∃ c t2, t = c :: t2 ∧ c.isDigit = false) :
    matchTaskIdAt ('T' :: (ds ++ t)) = some (ds, 1 + ds.length) := by
  simp only [matchTaskIdAt]
  have htw : (ds ++ t).takeWhile Char.isDigit = ds := by
    rcases ht with h | ⟨c, t2, rfl, hc⟩
    · rw [h, List.append_nil]
      exact List.takeWhile_eq_self_iff.mpr (by intro x hx; exact hd x hx)
    · exact takeWhile_append_not Char.isDigit ds hd c hc t2
  rw [htw, if_neg (by simp [hds])]

theorem scanRanges_pair (ds es : List Char) (hds : ds ≠ []) (hes : es ≠ [])
    (hd : ∀ c ∈ ds, c.isDigit = true) (he : ∀ c ∈ es, c.isDigit = true) :
    scanTaskRanges (('T' :: ds) ++ '-' :: 'T' :: es) = [(ds, es)] := by
  unfold scanTaskRanges
  rw [List.cons_append]
  rw [scanAll_cons_some matchTaskRangeAt 'T' (ds ++ '-' :: 'T' :: es) (ds, es)
    (1 + ds.length + 2 + es.length) (matchTaskRangeAt_eq ds es hds hes hd he)]
  have hlen : ('T' :: (ds ++ '-' :: 'T' :: es)).length
      ≤ (1 + ds.length + 2 + es.length).max 1 := by
    simp [List.length_append]
    omega
  rw [List.drop_eq_nil_of_le hlen]
  rfl

theorem scanIds_pair (ds es : List Char) (hds : ds ≠ []) (hes : es ≠ [])
    (hd : ∀ c ∈ ds, c.isDigit = true) (he : ∀ c ∈ es, c.isDigit = true) :
    scanTaskIds (('T' :: ds) ++ '-' :: 'T' :: es) = [ds, es] := by
  unfold scanTaskIds
  rw [List.cons_append]
  have h1 : matchTaskIdAt ('T' :: (ds ++ '-' :: 'T' :: es)) = some (ds, 1 + ds.length) :=
    matchTaskIdAt_eq ds hds hd ('-' :: 'T' :: es) (Or.inr ⟨'-', 'T' :: es, rfl, by decide⟩)
  rw [scanAll_cons_some matchTaskIdAt 'T' (ds ++ '-' :: 'T' :: es) ds (1 + ds.length) h1]
  have hmax : (1 + ds.length).max 1 = 1 + ds.length := Nat.max_eq_left (by omega)
  rw [hmax]
  have hdrop : ('T' :: (ds ++ '-' :: 'T' :: es)).drop (1 + ds.length) = '-' :: 'T' :: es := by
    rw [Nat.add_comm, List.drop_succ_cons, List.drop_left]
  rw [hdrop]
  rw [scanAll_cons_none matchTaskIdAt '-' ('T' :: es) rfl]
  have h2 : matchTaskIdAt ('T' :: (es ++ [])) = some (es, 1 + es.length) :=
    matchTaskIdAt_eq es hes he [] (Or.inl rfl)
  rw [List.append_nil] at h2
  rw [scanAll_cons_some matchTaskIdAt 'T' es es (1 + es.length) h2]
  have hlen2 : ('T' :: es).length ≤ (1 + es.length).max 1 := by simp; omega
  rw [List.drop_eq_nil_of_le hlen2]
  rfl


theorem natOfDigits_zeros (k : Nat) (l : List Char) :
    natOfDigits (List.replicate k '0' ++ l) = natOfDigits l := by
  induction k with
  | zero => simp
  | succ k ih =>
    show natOfDigits ('0' :: (List.replicate k '0' ++ l)) = natOfDigits l
    unfold natOfDigits
    simp only [List.foldl_cons]
    have h0 : (0 * 10 + ('0'.toNat - 48)) = 0 := by decide
    rw [h0]
    exact ih

theorem natOfDigits_padStart3 (l : List Char) :
    natOfDigits (padStart3 l) = natOfDigits l := by
  unfold padStart3
  by_cases h : l.length < 3
  · rw [if_pos h]; exact natOfDigits_zeros _ l
  · rw [if_neg h]

theorem taskIdOfDigits_inj_nat {ds es : List Char}
    (h : taskIdOfDigits ds = taskIdOfDigits es) : natOfDigits ds = natOfDigits es := by
  unfold taskIdOfDigits at h
  have h2 : ('T' :: padStart3 ds) = ('T' :: padStart3 es) := congrArg String.data h
  have hpad : padStart3 ds = padStart3 es := by injection h2
  calc natOfDigits ds = natOfDigits (padStart3 ds) := (natOfDigits_padStart3 ds).symm
    _ = natOfDigits (padStart3 es) := by rw [hpad]
    _ = natOfDigits es := natOfDigits_padStart3 es

/-- C10: a reversed range contributes no expansion, but both endpoint tokens
survive as individually extracted, zero-padded IDs. -/
theorem claim_C10_reversed_range (ds es : List Char) (hds : ds ≠ []) (hes : es ≠ [])
    (hd : ∀ c ∈ ds, c.isDigit = true) (he : ∀ c ∈ es, c.isDigit = true)
    (hlt : natOfDigits es < natOfDigits ds) :
    extractParallelTasks (('T' :: ds) ++ '-' :: 'T' :: es)
      = List.insertionSort (fun a b => jsLexLe a b = true)
          [taskIdOfDigits ds, taskIdOfDigits es] := by
  unfold extractParallelTasks
  rw [scanRanges_pair ds es hds hes hd he, scanIds_pair ds es hds hes hd he]
  have hr : natsFromTo (natOfDigits ds) (natOfDigits es) = [] := by
    unfold natsFromTo
    have h0 : natOfDigits es + 1 - natOfDigits ds = 0 := by omega
    rw [h0]
    rfl
  have hne : taskIdOfDigits ds ≠ taskIdOfDigits es := by
    intro h
    exact absurd (taskIdOfDigits_inj_nat h) (by omega)
  have hbeq : (taskIdOfDigits es == taskIdOfDigits ds) = false := by
    rw [beq_eq_false_iff_ne]
    exact fun hx => hne hx.symm
  simp only [rangeFold_eq, idsFold_eq]
  simp only [List.flatMap_cons, List.flatMap_nil, hr, List.map_nil, List.append_nil,
    List.nil_append, List.map_cons]
  have hfilter : List.filter (fun t => !([] : List String).contains t)
      [taskIdOfDigits ds, taskIdOfDigits es]
        = [taskIdOfDigits ds, taskIdOfDigits es] := by
    simp
  rw [hfilter]
  have hdd : dedupFirst [taskIdOfDigits ds, taskIdOfDigits es]
      = [taskIdOfDigits ds, taskIdOfDigits es] := by
    simp [dedupFirst, dedupFirstAux, List.contains]
    exact fun hx => hne hx.symm
  rw [hdd]


/-- Witness for C10 at the concrete reversed range `T005-T003`. -/
theorem claim_C10_witness :
    ("005".data ≠ [] ∧ "003".data ≠ [] ∧
      (∀ c ∈ "005".data, c.isDigit = true) ∧ (∀ c ∈ "003".data, c.isDigit = true) ∧
      natOfDigits "003".data < natOfDigits "005".data) ∧
    extractParallelTasks (('T' :: "005".data) ++ '-' :: 'T' :: "003".data)
      = List.insertionSort (fun a b => jsLexLe a b = true)
          [taskIdOfDigits "005".data, taskIdOfDigits "003".data] :=
  ⟨⟨by decide, by decide, by decide, by decide, by decide⟩,
   claim_C10_reversed_range "005".data "003".data (by decide) (by decide)
     (by decide) (by decide) (by decide)⟩

/-- C4: when a phase-dependency line's description matches the "depends on
all" pattern, `dependsOn` is exactly the master-list phase numbers strictly
below this line's phase number (specific extraction is short-circuited). -/
theorem claim_C4_depends_on_all (content : String) (line : List Char) (n : Nat)
    (d : PhaseDependency)
    (hp : parsePhaseDependencyLine line (allPhaseNumbersOf (docLines content))
            = some (n, d))
    (hall : testDependsOnAll d.description.data = true) :
    d.dependsOn = (allPhaseNumbersOf (docLines content)).filter (fun k => k < n) := by
  unfold parsePhaseDependencyLine at hp
  cases hm : phaseDepLineMatch line with
  | none => rw [hm] at hp; cases hp
  | some t =>
    obtain ⟨ds, name, desc⟩ := t
    rw [hm] at hp
    simp only [Option.some.injEq, Prod.mk.injEq] at hp
    obtain ⟨hn, hd⟩ := hp
    subst hn
    subst hd
    simp only [] at hall
    show (if testDependsOnAll desc then _ else _) = _
    rw [if_pos hall]

theorem claim_C4_witness :
    (parsePhaseDependencyLine c4line (allPhaseNumbersOf (docLines c4doc))
        = some (3, c4dep) ∧
      testDependsOnAll c4dep.description.data = true) ∧
    c4dep.dependsOn
      = (allPhaseNumbersOf (docLines c4doc)).filter (fun k => k < 3) :=
  ⟨⟨by decide, by decide⟩,
   claim_C4_depends_on_all c4doc c4line 3 c4dep (by decide) (by decide)⟩

theorem mapLookup_set_self (m : List (Nat × α)) (k : Nat) (v : α) :
    mapLookup (mapSet m k v) k = some v := by
  induction m with
  | nil => simp [mapSet, mapLookup]
  | cons kv rest ih =>
    obtain ⟨k', v'⟩ := kv
    by_cases hk : k' = k
    · simp [mapSet, mapLookup, hk]
    · simp [mapSet, mapLookup, hk, ih]

theorem mapLookup_set_ne (m : List (Nat × α)) (k k' : Nat) (v : α) (h : k' ≠ k) :
    mapLookup (mapSet m k v) k' = mapLookup m k' := by
  have hkk : ¬ k = k' := fun hc => h hc.symm
  induction m with
  | nil =>
    simp only [mapSet, mapLookup]
    rw [if_neg hkk]
  | cons kv rest ih =>
    obtain ⟨k0, v0⟩ := kv
    by_cases hk : k0 = k
    · have hne0 : ¬ k0 = k' := fun hc => hkk (hk ▸ hc)
      simp only [mapSet, mapLookup, if_pos hk]
      simp only [mapLookup, if_neg hne0]
    · simp only [mapSet, mapLookup, if_neg hk]
      by_cases hk' : k0 = k'
      · simp only [mapLookup, if_pos hk']
      · simp only [mapLookup, if_neg hk', ih]

theorem dropWhile_ne_nil (q : α → Bool) :
    ∀ l : List α, (∃ x ∈ l, q x = false) → l.dropWhile q ≠ [] := by
  intro l
  induction l with
  | nil => rintro ⟨x, hx, _⟩; exact absurd hx (List.not_mem_nil x)
  | cons a l ih =>
    rintro ⟨x, hx, hqx⟩
    cases ha : q a with
    | false => simp [List.dropWhile_cons, ha]
    | true =>
      have hxl : x ∈ l := by
        rcases List.mem_cons.mp hx with h | h
        · rw [h] at hqx; rw [hqx] at ha; cases ha
        · exact h
      simp only [List.dropWhile_cons, ha, if_true]
      exact ih ⟨x, hxl, hqx⟩

theorem phaseDepLineMatch_head (l : List Char) (x : List Char × List Char × List Char)
    (h : phaseDepLineMatch l = some x) : ∃ t, l = '-' :: t := by
  cases l with
  | nil => simp [phaseDepLineMatch, expectLit, List.isPrefixOf] at h
  | cons c t =>
    by_cases hc : c = '-'
    · exact ⟨t, by rw [hc]⟩
    · exfalso
      have hbeq : ('-' == c) = false := by
        rw [beq_eq_false_iff_ne]; exact fun hb => hc hb.symm
      simp [phaseDepLineMatch, expectLit, List.isPrefixOf, hbeq] at h

theorem parse_not_blank (l : List Char) (all : List Nat) (x : Nat × PhaseDependency)
    (h : parsePhaseDependencyLine l all = some x) : (jsTrim l).isEmpty = false := by
  have hm : ∃ y, phaseDepLineMatch l = some y := by
    unfold parsePhaseDependencyLine at h
    cases hm : phaseDepLineMatch l with
    | none => rw [hm] at h; cases h
    | some y => exact ⟨y, rfl⟩
  obtain ⟨y, hy⟩ := hm
  obtain ⟨t, rfl⟩ := phaseDepLineMatch_head l y hy
  have hdash : jsSpace '-' = false := by decide
  have h1 : ('-' :: t).dropWhile jsSpace = '-' :: t := by
    simp [List.dropWhile_cons, hdash]
  unfold jsTrim
  rw [h1]
  have h2 : ('-' :: t).reverse.dropWhile jsSpace ≠ [] := by
    apply dropWhile_ne_nil
    exact ⟨'-', by simp, hdash⟩
  cases hrd : ('-' :: t).reverse.dropWhile jsSpace with
  | nil => exact absurd hrd h2
  | cons a as => simp

theorem scanDepLines_no_key (all : List Nat) (n : Nat) :
    ∀ (ls : List (List Char)) (m : List (Nat × PhaseDependency)),
      (∀ l ∈ ls, (parsePhaseDependencyLine l all).map Prod.fst ≠ some n) →
      mapLookup (scanDepLines ls all m) n = mapLookup m n := by
  intro ls
  induction ls with
  | nil => intro m _; rfl
  | cons l rest ih =>
    intro m hno
    have hrest : ∀ l2 ∈ rest, (parsePhaseDependencyLine l2 all).map Prod.fst ≠ some n :=
      fun l2 hl2 => hno l2 (List.mem_cons_of_mem l hl2)
    cases hb : isBreakLine l with
    | true => simp only [scanDepLines, hb, if_true]
    | false =>
      simp only [scanDepLines, hb, Bool.false_eq_true, if_false]
      cases ht : (jsTrim l).isEmpty with
      | true => simp only [if_true]; exact ih m hrest
      | false =>
        simp only [Bool.false_eq_true, if_false]
        cases hp : parsePhaseDependencyLine l all with
        | none => exact ih m hrest
        | some nd =>
          have hne : nd.1 ≠ n := fun he =>
            (hno l (List.mem_cons_self l rest)) (by rw [hp]; exact congrArg some he)
          rw [ih (mapSet m nd.1 nd.2) hrest]
          exact mapLookup_set_ne m nd.1 n nd.2 (fun he => hne he.symm)

theorem scanDepLines_from_l2 (all : List Nat) (n : Nat) (d2 : PhaseDependency) :
    ∀ (mid : List (List Char)) (post : List (List Char)) (l2 : List Char)
      (m : List (Nat × PhaseDependency)),
      parsePhaseDependencyLine l2 all = some (n, d2) →
      (∀ l ∈ mid ++ l2 :: post, isBreakLine l = false) →
      (∀ l ∈ post, (parsePhaseDependencyLine l all).map Prod.fst ≠ some n) →
      mapLookup (scanDepLines (mid ++ l2 :: post) all m) n = some d2 := by
  intro mid
  induction mid with
  | nil =>
    intro post l2 m hp hnb hno
    have hb : isBreakLine l2 = false := hnb l2 (by simp)
    have ht : (jsTrim l2).isEmpty = false := parse_not_blank l2 all (n, d2) hp
    simp only [List.nil_append, scanDepLines, hb, Bool.false_eq_true, if_false, ht, hp]
    rw [scanDepLines_no_key all n post (mapSet m n d2) hno]
    exact mapLookup_set_self m n d2
  | cons l mid ih =>
    intro post l2 m hp hnb hno
    have hb : isBreakLine l = false := hnb l (by simp)
    have hnb2 : ∀ l3 ∈ mid ++ l2 :: post, isBreakLine l3 = false :=
      fun l3 hl3 => hnb l3 (List.mem_cons_of_mem l hl3)
    simp only [List.cons_append, scanDepLines, hb, Bool.false_eq_true, if_false]
    cases ht : (jsTrim l).isEmpty with
    | true => simp only [if_true]; exact ih post l2 m hp hnb2 hno
    | false =>
      simp only [Bool.false_eq_true, if_false]
      cases hpl : parsePhaseDependencyLine l all with
      | none => exact ih post l2 m hp hnb2 hno
      | some nd => exact ih post l2 (mapSet m nd.1 nd.2) hp hnb2 hno

/-- C9: within the Phase Dependencies scan, a later well-formed line with the
same phase number replaces the earlier record wholesale (`Map.set`
overwrites), and on the concrete two-line document the final map holds only
the later line's record. -/
theorem claim_C9_later_line_wins :
    (∀ (pre mid post : List (List Char)) (l1 l2 : List Char) (all : List Nat)
        (m : List (Nat × PhaseDependency)) (n : Nat) (d1 d2 : PhaseDependency),
      parsePhaseDependencyLine l1 all = some (n, d1) →
      parsePhaseDependencyLine l2 all = some (n, d2) →
      (∀ l ∈ pre ++ l1 :: (mid ++ l2 :: post), isBreakLine l = false) →
      (∀ l ∈ post, (parsePhaseDependencyLine l all).map Prod.fst ≠ some n) →
      mapLookup (scanDepLines (pre ++ l1 :: (mid ++ l2 :: post)) all m) n = some d2) ∧
    mapLookup (parseDependencies c9doc) 2 = some c9rec := by
  constructor
  · intro pre
    induction pre with
    | nil =>
      intro mid post l1 l2 all m n d1 d2 hp1 hp2 hnb hno
      have hb : isBreakLine l1 = false := hnb l1 (by simp)
      have ht : (jsTrim l1).isEmpty = false := parse_not_blank l1 all (n, d1) hp1
      simp only [List.nil_append, scanDepLines, hb, Bool.false_eq_true, if_false, ht, hp1]
      exact scanDepLines_from_l2 all n d2 mid post l2 (mapSet m n d1) hp2
        (fun l hl => hnb l (List.mem_cons_of_mem l1 hl)) hno
    | cons l pre ih =>
      intro mid post l1 l2 all m n d1 d2 hp1 hp2 hnb hno
      have hb : isBreakLine l = false := hnb l (by simp)
      have hnb2 : ∀ l3 ∈ pre ++ l1 :: (mid ++ l2 :: post), isBreakLine l3 = false :=
        fun l3 hl3 => hnb l3 (List.mem_cons_of_mem l hl3)
      simp only [List.cons_append, scanDepLines, hb, Bool.false_eq_true, if_false]
      cases ht : (jsTrim l).isEmpty with
      | true =>
        simp only [if_true]
        exact ih mid post l1 l2 all m n d1 d2 hp1 hp2 hnb2 hno
      | false =>
        simp only [Bool.false_eq_true, if_false]
        cases hpl : parsePhaseDependencyLine l all with
        | none => exact ih mid post l1 l2 all m n d1 d2 hp1 hp2 hnb2 hno
        | some nd => exact ih mid post l1 l2 all (mapSet m nd.1 nd.2) n d1 d2 hp1 hp2 hnb2 hno
  · decide


theorem claim_C9_witness :
    (parsePhaseDependencyLine c9l1 [] = some (2, c9d1) ∧
      parsePhaseDependencyLine c9l2 [] = some (2, c9rec) ∧
      (∀ l ∈ ([] : List (List Char)) ++ c9l1 :: (([] : List (List Char)) ++ c9l2 :: []),
        isBreakLine l = false) ∧
      (∀ l ∈ ([] : List (List Char)),
        (parsePhaseDependencyLine l []).map Prod.fst ≠ some 2)) ∧
    mapLookup (scanDepLines (([] : List (List Char)) ++ c9l1 ::
        (([] : List (List Char)) ++ c9l2 :: [])) [] []) 2 = some c9rec :=
  ⟨⟨by decide, by decide, by decide, by decide⟩,
   claim_C9_later_line_wins.1 [] [] [] c9l1 c9l2 [] [] 2 c9d1 c9rec
     (by decide) (by decide) (by decide) (by decide)⟩

theorem mapLookup_mem : ∀ (m : List (Nat × α)) (k : Nat) (v : α),
    mapLookup m k = some v → (k, v) ∈ m := by
  intro m
  induction m with
  | nil => intro k v h; cases h
  | cons kv rest ih =>
    obtain ⟨k0, v0⟩ := kv
    intro k v h
    simp only [mapLookup] at h
    by_cases hk : k0 = k
    · rw [if_pos hk] at h
      injection h with hv
      subst hk
      subst hv
      exact List.mem_cons_self _ _
    · rw [if_neg hk] at h
      exact List.mem_cons_of_mem _ (ih k v h)

theorem addEdge_lookup_none (m : List (Nat × PhaseDependency)) (d k key : Nat)
    (h : mapLookup m key = none) : mapLookup (addEdge m d k) key = none := by
  cases hd : mapLookup m d with
  | none => simp only [addEdge, hd]; exact h
  | some blocker =>
    simp only [addEdge, hd]
    cases hc : blocker.blocks.contains k with
    | true => rw [if_pos rfl]; exact h
    | false =>
      rw [if_neg Bool.false_ne_true]
      have hne : key ≠ d := fun he => by rw [he, hd] at h; cases h
      rw [mapLookup_set_ne m d key _ hne]
      exact h

theorem addEdge_mono (m : List (Nat × PhaseDependency)) (d k key : Nat)
    (b : PhaseDependency) (h : mapLookup m key = some b) :
    ∃ b', mapLookup (addEdge m d k) key = some b' ∧ b'.dependsOn = b.dependsOn ∧
      ∀ x ∈ b.blocks, x ∈ b'.blocks := by
  cases hd : mapLookup m d with
  | none => simp only [addEdge, hd]; exact ⟨b, h, rfl, fun x hx => hx⟩
  | some blocker =>
    simp only [addEdge, hd]
    cases hc : blocker.blocks.contains k with
    | true => rw [if_pos rfl]; exact ⟨b, h, rfl, fun x hx => hx⟩
    | false =>
      rw [if_neg Bool.false_ne_true]
      by_cases hkey : key = d
      · subst hkey
        rw [h] at hd
        injection hd with hbb
        subst hbb
        refine ⟨{ b with blocks := b.blocks ++ [k] }, mapLookup_set_self m key _, rfl, ?_⟩
        intro x hx
        exact List.mem_append_left _ hx
      · rw [mapLookup_set_ne m d key _ hkey]
        exact ⟨b, h, rfl, fun x hx => hx⟩

theorem addEdge_target (m : List (Nat × PhaseDependency)) (d k : Nat)
    (blocker : PhaseDependency) (h : mapLookup m d = some blocker) :
    ∃ b', mapLookup (addEdge m d k) d = some b' ∧ k ∈ b'.blocks := by
  simp only [addEdge, h]
  cases hc : blocker.blocks.contains k with
  | true =>
    rw [if_pos rfl]
    refine ⟨blocker, h, ?_⟩
    simpa using hc
  | false =>
    rw [if_neg Bool.false_ne_true]
    exact ⟨_, mapLookup_set_self m d _, by simp⟩

theorem addEdge_of_none (m : List (Nat × PhaseDependency)) (d k : Nat)
    (h : mapLookup m d = none) : addEdge m d k = m := by
  simp only [addEdge, h]

theorem peFold_none (k : Nat) :
    ∀ (deps : List Nat) (acc : List (Nat × PhaseDependency)) (key : Nat),
      mapLookup acc key = none →
      mapLookup (deps.foldl (fun a d => addEdge a d k) acc) key = none := by
  intro deps
  induction deps with
  | nil => intro acc key h; exact h
  | cons d ds ih =>
    intro acc key h
    simp only [List.foldl_cons]
    exact ih _ key (addEdge_lookup_none acc d k key h)

theorem peFold_mono (k : Nat) :
    ∀ (deps : List Nat) (acc : List (Nat × PhaseDependency)) (key : Nat)
      (b : PhaseDependency),
      mapLookup acc key = some b →
      ∃ b', mapLookup (deps.foldl (fun a d => addEdge a d k) acc) key = some b' ∧
        b'.dependsOn = b.dependsOn ∧ ∀ x ∈ b.blocks, x ∈ b'.blocks := by
  intro deps
  induction deps with
  | nil => intro acc key b h; exact ⟨b, h, rfl, fun x hx => hx⟩
  | cons d ds ih =>
    intro acc key b h
    simp only [List.foldl_cons]
    obtain ⟨b1, h1, hdep1, hmono1⟩ := addEdge_mono acc d k key b h
    obtain ⟨b2, h2, hdep2, hmono2⟩ := ih _ key b1 h1
    exact ⟨b2, h2, hdep2.trans hdep1, fun x hx => hmono2 x (hmono1 x hx)⟩

theorem peFold_post (k : Nat) :
    ∀ (deps : List Nat) (acc : List (Nat × PhaseDependency)) (a : Nat),
      a ∈ deps → ∀ b',
      mapLookup (deps.foldl (fun a d => addEdge a d k) acc) a = some b' →
      k ∈ b'.blocks := by
  intro deps
  induction deps with
  | nil => intro acc a ha; exact absurd ha (List.not_mem_nil a)
  | cons d ds ih =>
    intro acc a ha b' hb'
    simp only [List.foldl_cons] at hb'
    rcases List.mem_cons.mp ha with rfl | hmem
    · cases hl : mapLookup acc a with
      | none =>
        rw [addEdge_of_none acc a k hl] at hb'
        rw [peFold_none k ds acc a hl] at hb'
        cases hb'
      | some blocker =>
        obtain ⟨b1, h1, hk1⟩ := addEdge_target acc a k blocker hl
        obtain ⟨b2, h2, _, hmono2⟩ := peFold_mono k ds (addEdge acc a k) a b1 h1
        rw [h2] at hb'
        injection hb' with he
        rw [← he]
        exact hmono2 k hk1
    · exact ih (addEdge acc d k) a hmem b' hb'

theorem fbFold_none :
    ∀ (es : List (Nat × PhaseDependency)) (acc : List (Nat × PhaseDependency)) (key : Nat),
      mapLookup acc key = none →
      mapLookup (es.foldl (fun acc kv =>
        kv.2.dependsOn.foldl (fun a d => addEdge a d kv.1) acc) acc) key = none := by
  intro es
  induction es with
  | nil => intro acc key h; exact h
  | cons kv es ih =>
    intro acc key h
    simp only [List.foldl_cons]
    exact ih _ key (peFold_none kv.1 kv.2.dependsOn acc key h)

theorem fbFold_mono :
    ∀ (es : List (Nat × PhaseDependency)) (acc : List (Nat × PhaseDependency)) (key : Nat)
      (b : PhaseDependency),
      mapLookup acc key = some b →
      ∃ b', mapLookup (es.foldl (fun acc kv =>
          kv.2.dependsOn.foldl (fun a d => addEdge a d kv.1) acc) acc) key = some b' ∧
        b'.dependsOn = b.dependsOn ∧ ∀ x ∈ b.blocks, x ∈ b'.blocks := by
  intro es
  induction es with
  | nil => intro acc key b h; exact ⟨b, h, rfl, fun x hx => hx⟩
  | cons kv es ih =>
    intro acc key b h
    simp only [List.foldl_cons]
    obtain ⟨b1, h1, hdep1, hmono1⟩ := peFold_mono kv.1 kv.2.dependsOn acc key b h
    obtain ⟨b2, h2, hdep2, hmono2⟩ := ih _ key b1 h1
    exact ⟨b2, h2, hdep2.trans hdep1, fun x hx => hmono2 x (hmono1 x hx)⟩

theorem fbFold_law :
    ∀ (es : List (Nat × PhaseDependency)) (acc : List (Nat × PhaseDependency))
      (k : Nat) (dep : PhaseDependency),
      (k, dep) ∈ es → ∀ a ∈ dep.dependsOn, ∀ b',
      mapLookup (es.foldl (fun acc kv =>
        kv.2.dependsOn.foldl (fun a d => addEdge a d kv.1) acc) acc) a = some b' →
      k ∈ b'.blocks := by
  intro es
  induction es with
  | nil => intro acc k dep hmem; exact absurd hmem (List.not_mem_nil _)
  | cons kv es ih =>
    intro acc k dep hmem a ha b' hb'
    simp only [List.foldl_cons] at hb'
    rcases List.mem_cons.mp hmem with heq | hmem'
    · rw [← heq] at hb'
      cases hl : mapLookup (dep.dependsOn.foldl (fun a d => addEdge a d k) acc) a with
      | none =>
        rw [fbFold_none es _ a hl] at hb'
        cases hb'
      | some b1 =>
        have hk1 : k ∈ b1.blocks := peFold_post k dep.dependsOn acc a ha b1 hl
        obtain ⟨b2, h2, _, hmono2⟩ := fbFold_mono es _ a b1 hl
        rw [h2] at hb'
        injection hb' with he
        rw [← he]
        exact hmono2 k hk1
    · exact ih _ k dep hmem' a ha b' hb'

theorem sortBlocks_lookup :
    ∀ (m : List (Nat × PhaseDependency)) (k : Nat),
      mapLookup (sortBlocksAll m) k = (mapLookup m k).map
        (fun d => { d with blocks := List.insertionSort (· ≤ ·) d.blocks }) := by
  intro m
  induction m with
  | nil => intro k; rfl
  | cons kv rest ih =>
    obtain ⟨k0, v0⟩ := kv
    intro k
    simp only [sortBlocksAll, List.map_cons, mapLookup]
    by_cases hk : k0 = k
    · rw [if_pos hk, if_pos hk]
      rfl
    · rw [if_neg hk, if_neg hk]
      simpa [sortBlocksAll] using ih k

theorem sortBlocks_sorted (m : List (Nat × PhaseDependency))
    (kv : Nat × PhaseDependency) (hkv : kv ∈ sortBlocksAll m) :
    List.Sorted (· ≤ ·) kv.2.blocks := by
  unfold sortBlocksAll at hkv
  obtain ⟨kv0, _, rfl⟩ := List.mem_map.mp hkv
  exact List.sorted_insertionSort _ _


/-- C3 (amended): in the map returned by `parseDependencies`, the
reverse-edge law holds (if B's record depends on A and a record for A
exists, A's `blocks` contains B) and every `blocks` list is sorted
ascending; `blocks` lists may however contain duplicates coming from the
direct extraction. -/
theorem claim_C3_reverse_edges_sorted :
    (∀ (content : String) (A B : Nat) (depA depB : PhaseDependency),
      mapLookup (parseDependencies content) B = some depB →
      A ∈ depB.dependsOn →
      mapLookup (parseDependencies content) A = some depA →
      B ∈ depA.blocks) ∧
    (∀ (content : String) (kv : Nat × PhaseDependency),
      kv ∈ parseDependencies content → List.Sorted (· ≤ ·) kv.2.blocks) := by
  constructor
  · intro content A B depA depB hB hAmem hA
    simp only [parseDependencies] at hB hA
    rw [sortBlocks_lookup] at hB hA
    cases hMB : mapLookup (addBlockEdges (parseDependenciesRaw content)) B with
    | none => rw [hMB] at hB; cases hB
    | some depB0 =>
      rw [hMB] at hB
      have hB2 : some ({ depB0 with
          blocks := List.insertionSort (· ≤ ·) depB0.blocks }) = some depB := hB
      injection hB2 with hB'
      cases hMA : mapLookup (addBlockEdges (parseDependenciesRaw content)) A with
      | none => rw [hMA] at hA; cases hA
      | some depA0 =>
        rw [hMA] at hA
        have hA2 : some ({ depA0 with
            blocks := List.insertionSort (· ≤ ·) depA0.blocks }) = some depA := hA
        injection hA2 with hA'
        have hAmem0 : A ∈ depB0.dependsOn := by
          have : depB.dependsOn = depB0.dependsOn := by rw [← hB']
          rw [← this]
          exact hAmem
        have hMB' := hMB
        have hMA' := hMA
        simp only [addBlockEdges] at hMB' hMA'
        cases hRB : mapLookup (parseDependenciesRaw content) B with
        | none =>
          rw [fbFold_none _ _ _ hRB] at hMB'
          cases hMB'
        | some depB1 =>
          obtain ⟨b2, h2, hdep2, _⟩ := fbFold_mono _ _ _ _ hRB
          rw [h2] at hMB'
          injection hMB' with he2
          have hmem1 : (B, depB1) ∈ parseDependenciesRaw content :=
            mapLookup_mem _ _ _ hRB
          have hAdep1 : A ∈ depB1.dependsOn := by
            rw [← hdep2, he2]
            exact hAmem0
          have hlaw := fbFold_law (parseDependenciesRaw content)
            (parseDependenciesRaw content) B depB1 hmem1 A hAdep1 depA0 hMA'
          rw [← hA']
          exact ((List.perm_insertionSort _ _).mem_iff).mpr hlaw
  · intro content kv hkv
    simp only [parseDependencies] at hkv
    exact sortBlocks_sorted _ kv hkv

/-- C3 counterexample: a description stating `Blocks Phase 3` twice produces
the blocks list `[3, 3]` — blocks lists are not duplicate-free. -/
theorem claim_C3_counterexample :
    (mapLookup (parseDependencies c3dupDoc) 1).map (fun d => d.blocks) = some [3, 3] ∧
    ¬ (∀ kv ∈ parseDependencies c3dupDoc, kv.2.blocks.Nodup) :=
  ⟨by decide, by decide⟩

theorem claim_C3_witness :
    (mapLookup (parseDependencies c3wDoc) 2 = some c3wDep2 ∧
      (1 : Nat) ∈ c3wDep2.dependsOn ∧
      mapLookup (parseDependencies c3wDoc) 1 = some c3wDep1) ∧
    (2 : Nat) ∈ c3wDep1.blocks ∧
    List.Sorted (· ≤ ·) c3wDep1.blocks :=
  ⟨⟨by decide, by decide, by decide⟩,
   claim_C3_reverse_edges_sorted.1 c3wDoc 1 2 c3wDep1 c3wDep2
     (by decide) (by decide) (by decide),
   by
    have h := claim_C3_reverse_edges_sorted.2 c3wDoc (1, c3wDep1)
      (mapLookup_mem _ _ _ (by decide))
    exact h⟩

end Speckit
